import Mathlib

/-!
Shallow embedding of `src/compiler/codegen/mod.rs` of the liliumvm
repository: the code-generation backend lowering the parser's AST into a
register-machine instruction stream (a `Module`).  Every definition below
mirrors one item of that source file; panics (`panic!`, `expect`, and the
out-of-range slice index in `expr_conditional`) are modelled by returning
`none`.  Machine integers are modelled as `Nat`/`Int`; the `as u8` casts
used when packing multi-byte operands are modelled by explicit `% 256`
(and `Int.emod` for two's complement), register arithmetic is kept on
`Nat` (the source performs no overflow check on the one-byte register
index, a limitation its spec flags explicitly and that no theorem below
touches).
-/

namespace codegen

/-- Modelled from the spec: the fixed opcode set of the downstream virtual
machine.  The numeric opcode byte values live in the out-of-scope `common`
crate (`ops::LD`, `ops::ADD`, ...); only their distinctness matters to the
generator, so they are modelled as constructors of an enumeration. -/
inductive Opcode where
  | LD | LDB | ADD | SUB | MUL | DIV | AND | OR | EQ | LT | LE | GT | GE | NEQ
  | NOT | WRI | RDI | MOV | MVO | JMP | CAL | LDR | JTF | JMF | RET | HLT
  deriving DecidableEq, Repr

/-- Modelled from the spec: the type tags of the `common` crate
(`types::INT`); the core treats all values as a single integer type. -/
inductive VType where
  | INT
  deriving DecidableEq, Repr

/-- Modelled from the spec: the designated result/return-value register
`reg::VAL` of the out-of-scope `common` crate.  Its numeric value is not
given by spec or source; it is modelled as `0`.  No theorem below depends
on the choice. -/
def reg.VAL : Nat := 0

/-- One fixed-width instruction: opcode plus three operand bytes
(`Instruction` in the `common` crate, as described by the spec: opcode,
target register, left operand byte, right operand byte). -/
structure Instruction where
  opcode : Opcode
  target : Nat
  left : Nat
  right : Nat
  deriving DecidableEq, Repr

/-- The generated module: function entry addresses, constant pool, entry
point and code (`Module` of the `common` crate, field-for-field as used by
the generator). -/
structure Module where
  functions : List Nat
  constants : List Int
  entry_point : Nat
  code : List Instruction
  deriving DecidableEq, Repr

/-- The AST produced by the parser (`compiler::parser::Expression`),
exactly the variants the generator matches on. -/
inductive Expression where
  | Integer : Int → Expression
  | BinaryOp : String → Expression → Expression → Expression
  | UnaryOp : String → Expression → Expression
  | NullaryOp : String → Expression
  | Function : String → List Expression → Expression
  | FunctionDefinition : String → List String → List Expression → Expression
  | VariableAssignment : List (String × Expression) → List Expression → Expression
  | Variable : String → Expression
  | Conditional : Expression → List Expression → List Expression → Expression

/-- Structure for performing optimizations (`OptimizationInfo`): enclosing
function name and tail-position flag. -/
structure OptimizationInfo where
  func_name : String
  tail : Bool

/-- `HashMap::insert` on an association list that never holds a key twice:
replace the first binding of the key, or prepend a fresh one.  Used for
both the function table (`HashMap<String, u32>`) and the variable map
(`HashMap<String, (Type, Register)>`). -/
def assoc_insert {α : Type} : List (String × α) → String → α → List (String × α)
  | [], k, v => [(k, v)]
  | a :: t, k, v => if a.1 == k then (k, v) :: t else a :: assoc_insert t k v

/-- `HashMap::get` on the association-list model. -/
def assoc_find {α : Type} : List (String × α) → String → Option α
  | [], _ => none
  | a :: t, k => if a.1 == k then some a.2 else assoc_find t k

/-- The function table `func: HashMap<String, u32>`. -/
abbrev FuncMap := List (String × Nat)

/-- The variable table `vars: HashMap<String, (Type, Register)>`. -/
abbrev VarMap := List (String × (VType × Nat))

/-- `func.len()`: number of keys of the function table (the model keeps
each key at most once, so the list length is the key count). -/
def funcLen (func : FuncMap) : Nat := func.length

/-- Two's-complement low byte of an in-range `i16`: `value as u8`. -/
def i16_lo (value : Int) : Nat := (value.emod 65536).toNat % 256

/-- Two's-complement high byte of an in-range `i16`:
`(value >> 8) as u8` (arithmetic shift, then low byte). -/
def i16_hi (value : Int) : Nat := (value.emod 65536).toNat / 256

/-- `expr_integer`: lower an integer literal.  If the value fits `i16`,
emit one `LD` with the value packed into the two operand bytes; otherwise
append it to the constant pool — `u16::try_from(len).expect(...)` aborts
(modelled as `none`) when the pool index does not fit 16 bits — and emit
one `LDB` referencing the new index. -/
def expr_integer (value : Int) (base : Nat) (module : Module) : Option Module :=
  if -32768 ≤ value ∧ value ≤ 32767 then
    some { module with
           code := module.code ++ [⟨Opcode.LD, base, i16_lo value, i16_hi value⟩] }
  else
    let len := module.constants.length
    if len ≤ 65535 then
      some { module with
             constants := module.constants ++ [value],
             code := module.code ++ [⟨Opcode.LDB, base, len % 256, len / 256⟩] }
    else
      none

/-- The `match op` table of `expr_binary`; `none` is the
`panic!("Invalid operation")` arm. -/
def binop_code (op : String) : Option Opcode :=
  match op with
  | "+" => some Opcode.ADD
  | "-" => some Opcode.SUB
  | "*" => some Opcode.MUL
  | "/" => some Opcode.DIV
  | "&" => some Opcode.AND
  | "|" => some Opcode.OR
  | "==" => some Opcode.EQ
  | "<" => some Opcode.LT
  | "<=" => some Opcode.LE
  | ">" => some Opcode.GT
  | ">=" => some Opcode.GE
  | "!=" => some Opcode.NEQ
  | _ => none

/-- The `match op` table of `expr_unary`. -/
def unop_code (op : String) : Option Opcode :=
  match op with
  | "~" => some Opcode.NOT
  | "write" => some Opcode.WRI
  | _ => none

/-- The `match op` table of `expr_nullary`. -/
def nullop_code (op : String) : Option Opcode :=
  match op with
  | "read" => some Opcode.RDI
  | _ => none

/-- The parameter-binding loop of `expr_fundef`: bind each parameter name,
in order, to consecutive registers starting at the incoming base, and
return the extended variable map together with the base register the body
is generated into. -/
def bind_params : List String → Nat → VarMap → VarMap × Nat
  | [], base, vars => (vars, base)
  | p :: rest, base, vars =>
      bind_params rest (base + 1) (assoc_insert vars p (VType.INT, base))

mutual

/-- `generate_expression`: dispatch over the AST node kind, appending the
node's instructions to the module.  The bodies of the `#[inline(always)]`
helpers `expr_binary`, `expr_unary`, `expr_nullary`, `expr_call`,
`expr_fundef`, `expr_varass`, `expr_variable` and `expr_conditional` are
inlined into the corresponding match arms, each kept line-for-line with
the source.  A Rust `panic!` (and the out-of-range index taken by
`expr_conditional` on an empty branch list) yields `none`. -/
def generate_expression (expr : Expression) (base : Nat) (func : FuncMap)
    (vars : VarMap) (module : Module) (oinfo : OptimizationInfo) :
    Option (FuncMap × Module) :=
  match expr with
  | Expression.Integer i =>
      match expr_integer i base module with
      | none => none
      | some m => some (func, m)
  | Expression.BinaryOp op left right =>
      -- expr_binary, with oinfo reset to tail := false by the dispatcher
      let optimizations : OptimizationInfo := ⟨oinfo.func_name, false⟩
      match generate_expression left (base + 1) func vars module optimizations with
      | none => none
      | some (f1, m1) =>
        match generate_expression right (base + 2) f1 vars m1 optimizations with
        | none => none
        | some (f2, m2) =>
          match binop_code op with
          | none => none
          | some oc =>
              some (f2, { m2 with code := m2.code ++ [⟨oc, base, base + 1, base + 2⟩] })
  | Expression.UnaryOp op left =>
      -- expr_unary, with oinfo reset to tail := false by the dispatcher
      let optimizations : OptimizationInfo := ⟨oinfo.func_name, false⟩
      match generate_expression left (base + 1) func vars module optimizations with
      | none => none
      | some (f1, m1) =>
        match unop_code op with
        | none => none
        | some oc =>
            some (f1, { m1 with code := m1.code ++ [⟨oc, base, base + 1, 0⟩] })
  | Expression.NullaryOp op =>
      -- expr_nullary
      match nullop_code op with
      | none => none
      | some oc => some (func, { module with code := module.code ++ [⟨oc, base, 0, 0⟩] })
  | Expression.Function name param =>
      -- expr_call; the incoming oinfo is passed through unchanged
      match assoc_find func name with
      | none => none
      | some index =>
        let param_oinfo : OptimizationInfo := ⟨oinfo.func_name, false⟩
        match gen_params param base reg.VAL func vars module param_oinfo oinfo.tail [] with
        | none => none
        | some (f1, m1, tmp_instructions) =>
          let m1 := { m1 with code := m1.code ++ tmp_instructions }
          if oinfo.tail then
            some (f1, { m1 with code := m1.code ++
              [⟨Opcode.JMP, index % 256, index / 256 % 256, index / 65536 % 256⟩] })
          else
            some (f1, { m1 with code := m1.code ++
              [⟨Opcode.CAL, index % 256, index / 256 % 256, index / 65536 % 256⟩,
               ⟨Opcode.LDR, base, 0, 0⟩] })
  | Expression.FunctionDefinition name param body =>
      -- expr_fundef, with oinfo set to { name, tail := true } by the dispatcher
      let optimizations : OptimizationInfo := ⟨name, true⟩
      let index := funcLen func
      let address := module.code.length
      let func1 := assoc_insert func name index
      let module1 := { module with functions := module.functions ++ [address] }
      match bind_params param base vars with
      | (vars1, base1) =>
        match gen_seq body base1 func1 vars1 module1 optimizations with
        | none => none
        | some (f2, m2) =>
            some (f2, { m2 with code := m2.code ++
              [⟨Opcode.MOV, reg.VAL, base1, 0⟩, ⟨Opcode.RET, 0, 0, 0⟩] })
  | Expression.VariableAssignment assignment body =>
      -- expr_varass, with oinfo reset to tail := false by the dispatcher
      let optimizations : OptimizationInfo := ⟨oinfo.func_name, false⟩
      match gen_assigns assignment base func vars module optimizations with
      | none => none
      | some (f1, m1, vars1, tmp_base) =>
        match gen_seq body tmp_base f1 vars1 m1 optimizations with
        | none => none
        | some (f2, m2) =>
            some (f2, { m2 with code := m2.code ++ [⟨Opcode.MOV, base, tmp_base, 0⟩] })
  | Expression.Variable name =>
      -- expr_variable
      match assoc_find vars name with
      | none => none
      | some (_, r) =>
          some (func, { module with code := module.code ++ [⟨Opcode.MOV, base, r, 0⟩] })
  | Expression.Conditional cond yes no =>
      -- expr_conditional; the incoming oinfo is passed through unchanged
      let condition_opti : OptimizationInfo := ⟨oinfo.func_name, false⟩
      match generate_expression cond base func vars module condition_opti with
      | none => none
      | some (f1, m1) =>
        let jmp_index := m1.code.length
        let m1 := { m1 with code := m1.code ++ [⟨Opcode.JTF, base, 0, 0⟩] }
        match gen_branch no base f1 vars m1 condition_opti oinfo with
        | none => none
        | some (f2, m2) =>
          let offset := m2.code.length - jmp_index + 1
          let patched := m2.code.set jmp_index
            { m2.code.getD jmp_index ⟨Opcode.HLT, 0, 0, 0⟩ with
              left := offset % 256, right := offset / 256 % 256 }
          let m2 := { m2 with code := patched }
          let jmp_index2 := m2.code.length
          let m3 := { m2 with code := m2.code ++ [⟨Opcode.JMF, 0, 0, 0⟩] }
          match gen_branch yes base f2 vars m3 condition_opti oinfo with
          | none => none
          | some (f3, m4) =>
            let offset2 := m4.code.length - jmp_index2
            let patched2 := m4.code.set jmp_index2
              { m4.code.getD jmp_index2 ⟨Opcode.HLT, 0, 0, 0⟩ with
                target := offset2 % 256, left := offset2 / 256 % 256,
                right := offset2 / 65536 % 256 }
            some (f3, { m4 with code := patched2 })
termination_by sizeOf expr
decreasing_by
  all_goals simp_wf
  all_goals omega

/-- The body loops of `expr_fundef`, `expr_varass` and `expr_conditional`:
generate each expression of the list in order into the same base register
with the same optimization info. -/
def gen_seq (body : List Expression) (base : Nat) (func : FuncMap)
    (vars : VarMap) (module : Module) (oinfo : OptimizationInfo) :
    Option (FuncMap × Module) :=
  match body with
  | [] => some (func, module)
  | e :: rest =>
      match generate_expression e base func vars module oinfo with
      | none => none
      | some (f1, m1) => gen_seq rest base f1 vars m1 oinfo
termination_by sizeOf body
decreasing_by
  all_goals simp_wf
  all_goals omega

/-- The branch handling of `expr_conditional`: the loop
`for expr in &no[..no.len()]` ranges over the FULL branch list with
tail := false (`condition_opti`), after which `&no[no.len() - 1]` — the
last element — is generated once more with the incoming `oinfo`.  On an
empty branch the index `no.len() - 1` is out of range and the process
aborts (`none`).  The recursion below performs exactly that instruction
sequence: every element in order with `condition_opti`, and the last
element a second time, immediately after its loop iteration, with
`oinfo`. -/
def gen_branch (branch : List Expression) (base : Nat) (func : FuncMap)
    (vars : VarMap) (module : Module) (condition_opti oinfo : OptimizationInfo) :
    Option (FuncMap × Module) :=
  match branch with
  | [] => none
  | [e] =>
      match generate_expression e base func vars module condition_opti with
      | none => none
      | some (f1, m1) => generate_expression e base f1 vars m1 oinfo
  | e :: e2 :: rest =>
      match generate_expression e base func vars module condition_opti with
      | none => none
      | some (f1, m1) => gen_branch (e2 :: rest) base f1 vars m1 condition_opti oinfo
termination_by sizeOf branch
decreasing_by
  all_goals simp_wf
  all_goals omega

/-- The parameter loop of `expr_call`: evaluate each argument into the
next register above `tmp_base` (tail-ness forced false), and collect the
parameter-transfer instructions (`MOV` when the call is in tail position,
`MVO` with the sentinel `0xFF` right byte otherwise) in `acc`, to be
appended to the code after all arguments. -/
def gen_params (param : List Expression) (tmp_base tmp_param : Nat)
    (func : FuncMap) (vars : VarMap) (module : Module)
    (param_oinfo : OptimizationInfo) (tail : Bool) (acc : List Instruction) :
    Option (FuncMap × Module × List Instruction) :=
  match param with
  | [] => some (func, module, acc)
  | p :: rest =>
      let tmp_base := tmp_base + 1
      let tmp_param := tmp_param + 1
      match generate_expression p tmp_base func vars module param_oinfo with
      | none => none
      | some (f1, m1) =>
        let mov : Instruction :=
          if tail then ⟨Opcode.MOV, tmp_param, tmp_base, 0⟩
          else ⟨Opcode.MVO, tmp_param, tmp_base, 255⟩
        gen_params rest tmp_base tmp_param f1 vars m1 param_oinfo tail (acc ++ [mov])
termination_by sizeOf param
decreasing_by
  all_goals simp_wf
  all_goals omega

/-- The binding loop of `expr_varass`: evaluate each initializer, in
declaration order, into a fresh register one past the previous allocation,
then bind the name to that register (visible to subsequent initializers
and the body). -/
def gen_assigns (assignment : List (String × Expression)) (tmp_base : Nat)
    (func : FuncMap) (vars : VarMap) (module : Module)
    (oinfo : OptimizationInfo) :
    Option (FuncMap × Module × VarMap × Nat) :=
  match assignment with
  | [] => some (func, module, vars, tmp_base)
  | (var, e) :: rest =>
      let tmp_base := tmp_base + 1
      match generate_expression e tmp_base func vars module oinfo with
      | none => none
      | some (f1, m1) =>
          gen_assigns rest tmp_base f1 (assoc_insert vars var (VType.INT, tmp_base)) m1 oinfo
termination_by sizeOf assignment
decreasing_by
  all_goals simp_wf
  all_goals omega

end

/-- Whether a top-level node is a function definition (the filter of the
first driver pass). -/
def isFunDef : Expression → Bool
  | Expression.FunctionDefinition _ _ _ => true
  | _ => false

/-- One driver pass of `generate`: feed each top-level expression to
`generate_expression` at base register `reg::VAL`. -/
def gen_toplevel : List Expression → FuncMap → VarMap → Module →
    OptimizationInfo → Option (FuncMap × Module)
  | [], func, _, module, _ => some (func, module)
  | e :: rest, func, vars, module, oinfo =>
      match generate_expression e reg.VAL func vars module oinfo with
      | none => none
      | some (f1, m1) => gen_toplevel rest f1 vars m1 oinfo

/-- `generate`: process function definitions first, record the entry point,
process the remaining top-level expressions, and always end with a halt
instruction. -/
def generate (expressions : List Expression) : Option Module :=
  let func : FuncMap := []
  let vars : VarMap := []
  let module : Module := ⟨[], [], 0, []⟩
  let oinfo : OptimizationInfo := ⟨"NONE", false⟩
  match gen_toplevel (expressions.filter isFunDef) func vars module oinfo with
  | none => none
  | some (f1, m1) =>
    let m1 := { m1 with entry_point := m1.code.length }
    match gen_toplevel (expressions.filter (fun e => !(isFunDef e))) f1 vars m1 oinfo with
    | none => none
    | some (_, m2) =>
        some { m2 with code := m2.code ++ [⟨Opcode.HLT, 0, 0, 0⟩] }

/-! Helper lemmas: generation only appends to the code sequence (jump
patches rewrite positions at or after the code length at which the node
started) and never touches the entry point.  This is the workhorse for
the control-flow and driver claims. -/

/-- The module `m2` extends `m`: same entry point, and the code of `m` is
an unchanged prefix of the code of `m2`. -/
def ModuleExtends (m m2 : Module) : Prop :=
  m2.entry_point = m.entry_point ∧ ∃ t, m2.code = m.code ++ t

theorem ModuleExtends.refl (m : Module) : ModuleExtends m m :=
  ⟨rfl, [], by simp⟩

theorem ModuleExtends.trans {m1 m2 m3 : Module} (h1 : ModuleExtends m1 m2)
    (h2 : ModuleExtends m2 m3) : ModuleExtends m1 m3 := by
  obtain ⟨he1, t1, hc1⟩ := h1
  obtain ⟨he2, t2, hc2⟩ := h2
  exact ⟨he2.trans he1, t1 ++ t2, by simp [hc2, hc1]⟩

theorem ModuleExtends.push {m m2 : Module} (l : List Instruction)
    (h : ModuleExtends m m2) :
    ModuleExtends m { m2 with code := m2.code ++ l } := by
  obtain ⟨he, t, hc⟩ := h
  exact ⟨he, t ++ l, by simp [hc]⟩

theorem ModuleExtends.set {m m2 : Module} {i : Nat} (a : Instruction)
    (h : ModuleExtends m m2) (hi : m.code.length ≤ i) :
    ModuleExtends m { m2 with code := m2.code.set i a } := by
  obtain ⟨he, t, hc⟩ := h
  refine ⟨he, t.set (i - m.code.length) a, ?_⟩
  simp only [hc]
  exact List.set_append_right i a hi

theorem expr_integer_extends {value : Int} {base : Nat} {module m2 : Module}
    (h : expr_integer value base module = some m2) : ModuleExtends module m2 := by
  simp only [expr_integer] at h
  split at h
  · cases h; exact ⟨rfl, _, rfl⟩
  · split at h
    · cases h; exact ⟨rfl, _, rfl⟩
    · cases h

theorem ModuleExtends.length_le {m m2 : Module} (h : ModuleExtends m m2) :
    m.code.length ≤ m2.code.length := by
  obtain ⟨-, t, hc⟩ := h
  simp [hc]

/-- Generation appends: every successful run of the generator leaves the
incoming code as an unchanged prefix and the entry point untouched
(stated for all five mutually recursive functions at once, by strong
induction on the size of the processed node). -/
theorem gen_extends_all (n : Nat) :
    (∀ (expr : Expression) (base : Nat) (func : FuncMap) (vars : VarMap)
       (module : Module) (oinfo : OptimizationInfo) (f2 : FuncMap) (m2 : Module),
       sizeOf expr ≤ n →
       generate_expression expr base func vars module oinfo = some (f2, m2) →
       ModuleExtends module m2) ∧
    (∀ (body : List Expression) (base : Nat) (func : FuncMap) (vars : VarMap)
       (module : Module) (oinfo : OptimizationInfo) (f2 : FuncMap) (m2 : Module),
       sizeOf body ≤ n →
       gen_seq body base func vars module oinfo = some (f2, m2) →
       ModuleExtends module m2) ∧
    (∀ (branch : List Expression) (base : Nat) (func : FuncMap) (vars : VarMap)
       (module : Module) (co oi : OptimizationInfo) (f2 : FuncMap) (m2 : Module),
       sizeOf branch ≤ n →
       gen_branch branch base func vars module co oi = some (f2, m2) →
       ModuleExtends module m2) ∧
    (∀ (param : List Expression) (tb tp : Nat) (func : FuncMap) (vars : VarMap)
       (module : Module) (po : OptimizationInfo) (tl : Bool) (acc : List Instruction)
       (f2 : FuncMap) (m2 : Module) (movs : List Instruction),
       sizeOf param ≤ n →
       gen_params param tb tp func vars module po tl acc = some (f2, m2, movs) →
       ModuleExtends module m2) ∧
    (∀ (assignment : List (String × Expression)) (tb : Nat) (func : FuncMap)
       (vars : VarMap) (module : Module) (oinfo : OptimizationInfo)
       (f2 : FuncMap) (m2 : Module) (v2 : VarMap) (b2 : Nat),
       sizeOf assignment ≤ n →
       gen_assigns assignment tb func vars module oinfo = some (f2, m2, v2, b2) →
       ModuleExtends module m2) := by
  induction n using Nat.strong_induction_on with
  | _ n ih =>
    refine ⟨?_, ?_, ?_, ?_, ?_⟩
    · intro expr base func vars module oinfo f2 m2 hsz h
      cases expr with
      | Integer i =>
        simp only [generate_expression] at h
        split at h
        · simp at h
        next m hm =>
          cases h
          exact expr_integer_extends hm
      | BinaryOp op left right =>
        simp only [generate_expression] at h
        simp at hsz
        split at h
        · simp at h
        next f1 m1 hl =>
        split at h
        · simp at h
        next fr mr hr =>
        split at h
        · simp at h
        next oc hoc =>
        cases h
        have e1 := (ih (sizeOf left) (by omega)).1 left _ _ _ _ _ _ _ (Nat.le_refl _) hl
        have e2 := (ih (sizeOf right) (by omega)).1 right _ _ _ _ _ _ _ (Nat.le_refl _) hr
        exact (e1.trans e2).push _
      | UnaryOp op left =>
        simp only [generate_expression] at h
        simp at hsz
        split at h
        · simp at h
        next f1 m1 hl =>
        split at h
        · simp at h
        next oc hoc =>
        cases h
        have e1 := (ih (sizeOf left) (by omega)).1 left _ _ _ _ _ _ _ (Nat.le_refl _) hl
        exact e1.push _
      | NullaryOp op =>
        simp only [generate_expression] at h
        split at h
        · simp at h
        next oc hoc =>
        cases h
        exact (ModuleExtends.refl _).push _
      | Function name param =>
        simp only [generate_expression] at h
        simp at hsz
        split at h
        · simp at h
        next index hidx =>
        split at h
        · simp at h
        next f1 m1 movs hp =>
        have e1 := (ih (sizeOf param) (by omega)).2.2.2.1 param _ _ _ _ _ _ _ _ _ _ _
          (Nat.le_refl _) hp
        split at h <;> (cases h; exact (e1.push _).push _)
      | FunctionDefinition name param body =>
        simp only [generate_expression] at h
        simp at hsz
        split at h
        · simp at h
        next f2x m2x hb =>
        cases h
        have e1 := (ih (sizeOf body) (by omega)).2.1 body _ _ _ _ _ _ _ (Nat.le_refl _) hb
        have e0 : ModuleExtends module
            { module with functions := module.functions ++ [module.code.length] } :=
          ⟨rfl, [], by simp⟩
        exact (e0.trans e1).push _
      | VariableAssignment assignment body =>
        simp only [generate_expression] at h
        simp at hsz
        split at h
        · simp at h
        next f1 m1 vars1 tb1 ha =>
        split at h
        · simp at h
        next f2x m2x hb =>
        cases h
        have e1 := (ih (sizeOf assignment) (by omega)).2.2.2.2 assignment _ _ _ _ _ _ _ _ _
          (Nat.le_refl _) ha
        have e2 := (ih (sizeOf body) (by omega)).2.1 body _ _ _ _ _ _ _ (Nat.le_refl _) hb
        exact (e1.trans e2).push _
      | Variable name =>
        simp only [generate_expression] at h
        split at h
        · simp at h
        next p hp =>
        cases h
        exact (ModuleExtends.refl _).push _
      | Conditional cond yes no =>
        simp only [generate_expression] at h
        simp at hsz
        split at h
        · simp at h
        next f1 m1 hc =>
        split at h
        · simp at h
        next f2x m2x hn =>
        split at h
        · simp at h
        next f3x m3x hy =>
        cases h
        have e1 := (ih (sizeOf cond) (by omega)).1 cond _ _ _ _ _ _ _ (Nat.le_refl _) hc
        have e2 := (ih (sizeOf no) (by omega)).2.2.1 no _ _ _ _ _ _ _ _ (Nat.le_refl _) hn
        have e3 := (ih (sizeOf yes) (by omega)).2.2.1 yes _ _ _ _ _ _ _ _ (Nat.le_refl _) hy
        have c2 : ModuleExtends module m2x :=
          (e1.push [⟨Opcode.JTF, base, 0, 0⟩]).trans e2
        refine ((((c2.set _ e1.length_le).push [⟨Opcode.JMF, 0, 0, 0⟩]).trans e3).set _ ?_)
        simpa using c2.length_le
    · intro body base func vars module oinfo f2 m2 hsz h
      cases body with
      | nil =>
        simp only [gen_seq] at h
        cases h
        exact ModuleExtends.refl _
      | cons e rest =>
        simp only [gen_seq] at h
        simp at hsz
        split at h
        · simp at h
        next f1 m1 he =>
        have e1 := (ih (sizeOf e) (by omega)).1 e _ _ _ _ _ _ _ (Nat.le_refl _) he
        have e2 := (ih (sizeOf rest) (by omega)).2.1 rest _ _ _ _ _ _ _ (Nat.le_refl _) h
        exact e1.trans e2
    · intro branch base func vars module co oi f2 m2 hsz h
      cases branch with
      | nil => simp [gen_branch] at h
      | cons e rest =>
        cases rest with
        | nil =>
          simp only [gen_branch] at h
          simp at hsz
          split at h
          · simp at h
          next f1 m1 he =>
          have e1 := (ih (sizeOf e) (by omega)).1 e _ _ _ _ _ _ _ (Nat.le_refl _) he
          have e2 := (ih (sizeOf e) (by omega)).1 e _ _ _ _ _ _ _ (Nat.le_refl _) h
          exact e1.trans e2
        | cons e2 rest2 =>
          simp only [gen_branch] at h
          simp at hsz
          split at h
          · simp at h
          next f1 m1 he =>
          have x1 := (ih (sizeOf e) (by omega)).1 e _ _ _ _ _ _ _ (Nat.le_refl _) he
          have x2 := (ih (sizeOf (e2 :: rest2)) (by simp; omega)).2.2.1 (e2 :: rest2)
            _ _ _ _ _ _ _ _ (Nat.le_refl _) h
          exact x1.trans x2
    · intro param tb tp func vars module po tl acc f2 m2 movs hsz h
      cases param with
      | nil =>
        simp only [gen_params] at h
        cases h
        exact ModuleExtends.refl _
      | cons p rest =>
        simp only [gen_params] at h
        simp at hsz
        split at h
        · simp at h
        next f1 m1 hp =>
        have e1 := (ih (sizeOf p) (by omega)).1 p _ _ _ _ _ _ _ (Nat.le_refl _) hp
        have e2 := (ih (sizeOf rest) (by omega)).2.2.2.1 rest _ _ _ _ _ _ _ _ _ _ _
          (Nat.le_refl _) h
        exact e1.trans e2
    · intro assignment tb func vars module oinfo f2 m2 v2 b2 hsz h
      cases assignment with
      | nil =>
        simp only [gen_assigns] at h
        cases h
        exact ModuleExtends.refl _
      | cons pe rest =>
        obtain ⟨var, e⟩ := pe
        simp only [gen_assigns] at h
        simp at hsz
        split at h
        · simp at h
        next f1 m1 he =>
        have e1 := (ih (sizeOf e) (by omega)).1 e _ _ _ _ _ _ _ (Nat.le_refl _) he
        have e2 := (ih (sizeOf rest) (by omega)).2.2.2.2 rest _ _ _ _ _ _ _ _ _
          (Nat.le_refl _) h
        exact e1.trans e2

theorem generate_expression_extends {expr : Expression} {base : Nat} {func : FuncMap}
    {vars : VarMap} {module : Module} {oinfo : OptimizationInfo} {f2 : FuncMap}
    {m2 : Module}
    (h : generate_expression expr base func vars module oinfo = some (f2, m2)) :
    ModuleExtends module m2 :=
  (gen_extends_all (sizeOf expr)).1 expr _ _ _ _ _ _ _ (Nat.le_refl _) h

theorem gen_branch_extends {branch : List Expression} {base : Nat} {func : FuncMap}
    {vars : VarMap} {module : Module} {co oi : OptimizationInfo} {f2 : FuncMap}
    {m2 : Module}
    (h : gen_branch branch base func vars module co oi = some (f2, m2)) :
    ModuleExtends module m2 :=
  (gen_extends_all (sizeOf branch)).2.2.1 branch _ _ _ _ _ _ _ _ (Nat.le_refl _) h

theorem gen_seq_extends {body : List Expression} {base : Nat} {func : FuncMap}
    {vars : VarMap} {module : Module} {oinfo : OptimizationInfo} {f2 : FuncMap}
    {m2 : Module}
    (h : gen_seq body base func vars module oinfo = some (f2, m2)) :
    ModuleExtends module m2 :=
  (gen_extends_all (sizeOf body)).2.1 body _ _ _ _ _ _ _ (Nat.le_refl _) h

theorem gen_toplevel_extends : ∀ (es : List Expression) (func : FuncMap)
    (vars : VarMap) (module : Module) (oinfo : OptimizationInfo)
    (f2 : FuncMap) (m2 : Module),
    gen_toplevel es func vars module oinfo = some (f2, m2) →
    ModuleExtends module m2 := by
  intro es
  induction es with
  | nil =>
    intro func vars module oinfo f2 m2 h
    simp only [gen_toplevel] at h
    cases h
    exact ModuleExtends.refl _
  | cons e rest ihr =>
    intro func vars module oinfo f2 m2 h
    simp only [gen_toplevel] at h
    split at h
    · simp at h
    next f1 m1 he =>
    exact (generate_expression_extends he).trans (ihr _ _ _ _ _ _ h)

/-- C8: for every input expression list on which generation succeeds, the
returned module's entry point equals the code length at the end of the
function-definitions pass (the first `gen_toplevel` pass, over the
definition nodes only), and the final instruction of the code sequence is
a halt. -/
theorem claim_C8_driver (exprs : List Expression) (M : Module)
    (h : generate exprs = some M) :
    ∃ f1 m1,
      gen_toplevel (exprs.filter isFunDef) [] [] ⟨[], [], 0, []⟩ ⟨"NONE", false⟩
        = some (f1, m1) ∧
      M.entry_point = m1.code.length ∧
      M.code.getLast? = some ⟨Opcode.HLT, 0, 0, 0⟩ := by
  simp only [generate] at h
  split at h
  · simp at h
  next f1 m1 h1 =>
  split at h
  · simp at h
  next f2 m2 h2 =>
  cases h
  refine ⟨f1, m1, h1, ?_, ?_⟩
  · exact (gen_toplevel_extends _ _ _ _ _ _ _ h2).1
  · simp

/-- Witness for C8 at the concrete input `[]`. -/
theorem claim_C8_witness :
    ∃ f1 m1,
      gen_toplevel (List.filter isFunDef []) [] [] ⟨[], [], 0, []⟩ ⟨"NONE", false⟩
        = some (f1, m1) ∧
      (⟨[], [], 0, [⟨Opcode.HLT, 0, 0, 0⟩]⟩ : Module).entry_point = m1.code.length ∧
      (⟨[], [], 0, [⟨Opcode.HLT, 0, 0, 0⟩]⟩ : Module).code.getLast?
        = some ⟨Opcode.HLT, 0, 0, 0⟩ :=
  claim_C8_driver [] ⟨[], [], 0, [⟨Opcode.HLT, 0, 0, 0⟩]⟩
    (by simp [generate, gen_toplevel])

/-- C1: the claim states that in conditional lowering every branch
expression except the last is generated with tail=false and the last
expression of each branch is generated exactly once, so that
`Conditional(Integer(1), [Integer(2)], [Integer(3)])` compiles to the six
instructions condition-load, conditional-branch, load(3), unconditional-
branch, load(2), halt.  The source loop `for expr in &no[..no.len()]`
ranges over the FULL branch slice (its own comment says "Generate every
expression except tail"), and the last expression is then generated a
second time: the actual output below has eight instructions, with each
branch's load duplicated. -/
theorem claim_C1_generate_eval :
    generate [Expression.Conditional (Expression.Integer 1) [Expression.Integer 2]
      [Expression.Integer 3]] =
    some ⟨[], [], 0,
      [⟨Opcode.LD, 0, 1, 0⟩, ⟨Opcode.JTF, 0, 4, 0⟩, ⟨Opcode.LD, 0, 3, 0⟩,
       ⟨Opcode.LD, 0, 3, 0⟩, ⟨Opcode.JMF, 3, 0, 0⟩, ⟨Opcode.LD, 0, 2, 0⟩,
       ⟨Opcode.LD, 0, 2, 0⟩, ⟨Opcode.HLT, 0, 0, 0⟩]⟩ := by
  simp [generate, gen_toplevel, generate_expression, gen_branch, gen_seq,
    expr_integer, isFunDef, i16_lo, i16_hi, reg.VAL]
  decide

/-- C2 counterexample: the claim states the tail flag is reset to false
for every non-final expression of a function definition's body.  In
`f() { f(); 0 }` the call `f()` is non-final, yet it compiles to a
frame-reusing `JMP` (the tail-call form) and no `CAL`/push-frame
instruction appears anywhere — the dispatcher hands `expr_fundef`'s
`tail = true` info to every body expression. -/
theorem claim_C2_counterexample :
    generate [Expression.FunctionDefinition "f" []
        [Expression.Function "f" [], Expression.Integer 0]] =
      some ⟨[0], [], 4,
        [⟨Opcode.JMP, 0, 0, 0⟩, ⟨Opcode.LD, 0, 0, 0⟩, ⟨Opcode.MOV, 0, 0, 0⟩,
         ⟨Opcode.RET, 0, 0, 0⟩, ⟨Opcode.HLT, 0, 0, 0⟩]⟩ ∧
    (([⟨Opcode.JMP, 0, 0, 0⟩, ⟨Opcode.LD, 0, 0, 0⟩, ⟨Opcode.MOV, 0, 0, 0⟩,
       ⟨Opcode.RET, 0, 0, 0⟩, ⟨Opcode.HLT, 0, 0, 0⟩] : List Instruction).all
      (fun ins => ins.opcode != Opcode.CAL)) = true := by
  constructor
  · simp only [generate, gen_toplevel, generate_expression, gen_branch, gen_seq,
      gen_params, expr_integer, isFunDef, i16_lo, i16_hi, reg.VAL, bind_params,
      assoc_insert, assoc_find, funcLen]
    norm_num
  · decide

/-- C3: the claim states the i-th parameter-transfer instruction's target
register equals the register to which the callee binds its i-th parameter.
Generating `f(x){x}; f(7)` shows otherwise: the transfer (`MVO`, position
4) targets register `reg::VAL + 1 = 1`, while the callee binds its single
parameter `x` to register `reg::VAL = 0` — visible in the body's move
(position 0), which reads `x` from register 0.  `expr_call` increments
`tmp_param` BEFORE the first transfer, `expr_fundef` binds the first
parameter at the unincremented base. -/
theorem claim_C3_generate_eval :
    generate [Expression.FunctionDefinition "f" ["x"] [Expression.Variable "x"],
              Expression.Function "f" [Expression.Integer 7]] =
      some ⟨[0], [], 3,
        [⟨Opcode.MOV, 1, 0, 0⟩, ⟨Opcode.MOV, 0, 1, 0⟩, ⟨Opcode.RET, 0, 0, 0⟩,
         ⟨Opcode.LD, 1, 7, 0⟩, ⟨Opcode.MVO, 1, 1, 255⟩, ⟨Opcode.CAL, 0, 0, 0⟩,
         ⟨Opcode.LDR, 0, 0, 0⟩, ⟨Opcode.HLT, 0, 0, 0⟩]⟩ ∧
    (([⟨Opcode.MOV, 1, 0, 0⟩, ⟨Opcode.MOV, 0, 1, 0⟩, ⟨Opcode.RET, 0, 0, 0⟩,
       ⟨Opcode.LD, 1, 7, 0⟩, ⟨Opcode.MVO, 1, 1, 255⟩, ⟨Opcode.CAL, 0, 0, 0⟩,
       ⟨Opcode.LDR, 0, 0, 0⟩, ⟨Opcode.HLT, 0, 0, 0⟩] : List Instruction).getD 4
        ⟨Opcode.HLT, 0, 0, 0⟩).target = reg.VAL + 1 ∧
    (([⟨Opcode.MOV, 1, 0, 0⟩, ⟨Opcode.MOV, 0, 1, 0⟩, ⟨Opcode.RET, 0, 0, 0⟩,
       ⟨Opcode.LD, 1, 7, 0⟩, ⟨Opcode.MVO, 1, 1, 255⟩, ⟨Opcode.CAL, 0, 0, 0⟩,
       ⟨Opcode.LDR, 0, 0, 0⟩, ⟨Opcode.HLT, 0, 0, 0⟩] : List Instruction).getD 0
        ⟨Opcode.HLT, 0, 0, 0⟩).left = reg.VAL ∧
    reg.VAL + 1 ≠ reg.VAL := by
  refine ⟨?_, by decide, by decide, by decide⟩
  simp [generate, gen_toplevel, generate_expression, gen_branch, gen_seq,
    gen_params, expr_integer, isFunDef, i16_lo, i16_hi, reg.VAL, bind_params,
    assoc_insert, assoc_find, funcLen]
  decide

theorem expr_integer_eq (value : Int) (base : Nat) (m : Module) :
    expr_integer value base m =
      if -32768 ≤ value ∧ value ≤ 32767 then
        some (Module.mk m.functions m.constants m.entry_point
          (m.code ++ [⟨Opcode.LD, base, i16_lo value, i16_hi value⟩]))
      else if m.constants.length ≤ 65535 then
        some (Module.mk m.functions (m.constants ++ [value]) m.entry_point
          (m.code ++ [⟨Opcode.LDB, base,
            m.constants.length % 256, m.constants.length / 256⟩]))
      else none := rfl

theorem expr_integer_pool (v : Int) (base : Nat) (m : Module)
    (hv : ¬(-32768 ≤ v ∧ v ≤ 32767)) (hlen : m.constants.length ≤ 65535) :
    expr_integer v base m =
      some { m with
             constants := m.constants ++ [v],
             code := m.code ++ [⟨Opcode.LDB, base,
               m.constants.length % 256, m.constants.length / 256⟩] } := by
  rw [expr_integer_eq, if_neg hv, if_pos hlen]

/-- C5 counterexample: with the pool already holding 65,535 constants,
generating the out-of-range literal 100000 does NOT abort — it succeeds
and leaves the pool with 65,536 entries, i.e. the pool has exceeded
65,535 entries without any failure (the claim states the abort fires
exactly when the pool would exceed 65,535 entries).
`u16::try_from(65535)` succeeds, so the abort only fires one insertion
later. -/
theorem claim_C5_counterexample :
    expr_integer 100000 0 ⟨[], List.replicate 65535 0, 0, []⟩ ≠ none ∧
    (expr_integer 100000 0 ⟨[], List.replicate 65535 0, 0, []⟩).map
        (fun m => m.constants.length) = some 65536 := by
  have hlen : (List.replicate 65535 (0 : Int)).length = 65535 :=
    List.length_replicate _ _
  have h := expr_integer_pool 100000 0 ⟨[], List.replicate 65535 0, 0, []⟩
    (by norm_num) (le_of_eq hlen)
  rw [h]
  constructor
  · intro hc
    exact Option.noConfusion hc
  · rw [Option.map_some']
    have hl2 : (List.replicate 65535 (0 : Int) ++ [100000]).length = 65536 := by
      rw [List.length_append, hlen, List.length_singleton]
    exact congrArg some hl2

/-- C5, amended: generating an out-of-range integer literal aborts
fatally exactly when the constant pool already holds at least 65,536
entries (i.e. when the insertion would make the pool exceed 65,536
entries, one more than the claim states) — equivalently, whenever a pool
load is emitted, its pool index (the pool length before insertion) fits
in 16 bits. -/
theorem claim_C5_amended_thm (value : Int) (base : Nat) (module : Module) :
    (expr_integer value base module = none ↔
      (¬(-32768 ≤ value ∧ value ≤ 32767) ∧ 65536 ≤ module.constants.length)) ∧
    (∀ m2, expr_integer value base module = some m2 →
      ¬(-32768 ≤ value ∧ value ≤ 32767) → module.constants.length ≤ 65535) := by
  rw [expr_integer_eq]
  by_cases hfits : (-32768 ≤ value ∧ value ≤ 32767)
  · rw [if_pos hfits]
    constructor
    · simp only [reduceCtorEq, false_iff]
      intro hcon
      exact hcon.1 hfits
    · intro m2 _ hnf
      exact absurd hfits hnf
  · rw [if_neg hfits]
    by_cases hlen : module.constants.length ≤ 65535
    · rw [if_pos hlen]
      constructor
      · simp only [reduceCtorEq, false_iff]
        intro hcon
        exact absurd hcon.2 (by omega)
      · intro m2 _ _
        exact hlen
    · rw [if_neg hlen]
      constructor
      · simp only [true_iff]
        exact ⟨hfits, by omega⟩
      · intro m2 hsome _
        exact absurd hsome (by simp)

/-- Witness for C5's amended theorem, at the pool-full boundary input. -/
theorem claim_C5_witness :
    (⟨[], List.replicate 65535 0, 0, []⟩ : Module).constants.length ≤ 65535 := by
  have hlen : (List.replicate 65535 (0 : Int)).length = 65535 :=
    List.length_replicate _ _
  exact (claim_C5_amended_thm 100000 0 ⟨[], List.replicate 65535 0, 0, []⟩).2
    _ (expr_integer_pool 100000 0 _ (by norm_num) (le_of_eq hlen)) (by norm_num)

/-- C6: lowering a 64-bit signed integer literal.  If the value lies in
[-32768, 32767], exactly one immediate-load (`LD`) instruction is emitted
with the value packed little-endian (two's complement) into the two
operand bytes, and the constant pool is unchanged; otherwise (given the
pool has room, see C5) exactly one new pool entry equal to the value is
appended and exactly one pool-load (`LDB`) instruction referencing the
new entry's index is emitted. -/
theorem claim_C6_integer_lowering (value : Int) (base : Nat) (module : Module) :
    ((-32768 ≤ value ∧ value ≤ 32767) →
      expr_integer value base module =
        some { module with code := module.code ++
          [⟨Opcode.LD, base, i16_lo value, i16_hi value⟩] } ∧
      i16_lo value + 256 * i16_hi value = (value.emod 65536).toNat) ∧
    (¬(-32768 ≤ value ∧ value ≤ 32767) → module.constants.length ≤ 65535 →
      expr_integer value base module =
        some { module with
               constants := module.constants ++ [value],
               code := module.code ++ [⟨Opcode.LDB, base,
                 module.constants.length % 256, module.constants.length / 256⟩] }) := by
  constructor
  · intro hfits
    constructor
    · rw [expr_integer_eq, if_pos hfits]
    · unfold i16_lo i16_hi
      omega
  · intro hfits hlen
    exact expr_integer_pool value base module hfits hlen

/-- Witness for C6 at the concrete inputs 5 (immediate) and 100000
(pooled). -/
theorem claim_C6_witness :
    expr_integer 5 0 ⟨[], [], 0, []⟩ = some ⟨[], [], 0, [⟨Opcode.LD, 0, 5, 0⟩]⟩ ∧
    expr_integer 100000 0 ⟨[], [], 0, []⟩ =
      some ⟨[], [100000], 0, [⟨Opcode.LDB, 0, 0, 0⟩]⟩ := by
  constructor
  · have h := ((claim_C6_integer_lowering 5 0 ⟨[], [], 0, []⟩).1 (by norm_num)).1
    have e1 : i16_lo 5 = 5 := by decide
    have e2 : i16_hi 5 = 0 := by decide
    rw [e1, e2] at h
    exact h
  · exact (claim_C6_integer_lowering 100000 0 ⟨[], [], 0, []⟩).2 (by norm_num) (by simp)

/-- C9: a reference to an undefined function name, a reference to an
undefined variable name, and an operator symbol outside the supported set
(binary, unary or nullary) each abort generation fatally at the point of
detection — in the embedding the fatal process abort (`panic!`) is the
`none` outcome, and no structured error value exists: the generator's
only outcomes are a module or the abort. -/
theorem claim_C9_fatal_errors (name x op uop nop : String) (args : List Expression)
    (l r e : Expression) (base : Nat) (func : FuncMap) (vars : VarMap)
    (module : Module) (oinfo : OptimizationInfo)
    (hf : assoc_find func name = none)
    (hv : assoc_find vars x = none)
    (hop : binop_code op = none)
    (hu : unop_code uop = none)
    (hn : nullop_code nop = none) :
    generate_expression (Expression.Function name args) base func vars module oinfo
      = none ∧
    generate_expression (Expression.Variable x) base func vars module oinfo = none ∧
    generate_expression (Expression.BinaryOp op l r) base func vars module oinfo
      = none ∧
    generate_expression (Expression.UnaryOp uop e) base func vars module oinfo
      = none ∧
    generate_expression (Expression.NullaryOp nop) base func vars module oinfo
      = none := by
  refine ⟨?_, ?_, ?_, ?_, ?_⟩
  · simp only [generate_expression, hf]
  · simp only [generate_expression, hv]
  · simp only [generate_expression]
    cases h1 : generate_expression l (base + 1) func vars module
        ⟨oinfo.func_name, false⟩ with
    | none => simp [h1]
    | some p =>
      obtain ⟨f1, m1⟩ := p
      cases h2 : generate_expression r (base + 2) f1 vars m1
          ⟨oinfo.func_name, false⟩ with
      | none => simp [h1, h2]
      | some q =>
        obtain ⟨f2, m2⟩ := q
        simp [h1, h2, hop]
  · simp only [generate_expression]
    cases h1 : generate_expression e (base + 1) func vars module
        ⟨oinfo.func_name, false⟩ with
    | none => simp [h1]
    | some p =>
      obtain ⟨f1, m1⟩ := p
      simp [h1, hu]
  · simp only [generate_expression, hn]

/-- Witness for C9 at concrete undefined names and unsupported operators
in the empty environment. -/
theorem claim_C9_witness :
    generate_expression (Expression.Function "g" []) 0 [] [] ⟨[], [], 0, []⟩
      ⟨"NONE", false⟩ = none ∧
    generate_expression (Expression.Variable "y") 0 [] [] ⟨[], [], 0, []⟩
      ⟨"NONE", false⟩ = none ∧
    generate_expression (Expression.BinaryOp "%" (Expression.Integer 1)
      (Expression.Integer 2)) 0 [] [] ⟨[], [], 0, []⟩ ⟨"NONE", false⟩ = none ∧
    generate_expression (Expression.UnaryOp "!" (Expression.Integer 1)) 0 [] []
      ⟨[], [], 0, []⟩ ⟨"NONE", false⟩ = none ∧
    generate_expression (Expression.NullaryOp "rand") 0 [] [] ⟨[], [], 0, []⟩
      ⟨"NONE", false⟩ = none :=
  claim_C9_fatal_errors "g" "y" "%" "!" "rand" [] (Expression.Integer 1)
    (Expression.Integer 2) (Expression.Integer 1) 0 [] [] ⟨[], [], 0, []⟩
    ⟨"NONE", false⟩ rfl rfl rfl rfl rfl

theorem gen_params_movs (param : List Expression) :
    ∀ (tb tp : Nat) (func : FuncMap) (vars : VarMap) (module : Module)
      (po : OptimizationInfo) (tl : Bool) (acc : List Instruction)
      (f2 : FuncMap) (m2 : Module) (movs : List Instruction),
    gen_params param tb tp func vars module po tl acc = some (f2, m2, movs) →
    ∃ t, movs = acc ++ t ∧
      ∀ ins ∈ t, ins.opcode = (if tl then Opcode.MOV else Opcode.MVO) ∧
                 ins.right = (if tl then 0 else 255) := by
  induction param with
  | nil =>
    intro tb tp func vars module po tl acc f2 m2 movs h
    simp only [gen_params] at h
    cases h
    exact ⟨[], by simp, by simp⟩
  | cons p rest ihp =>
    intro tb tp func vars module po tl acc f2 m2 movs h
    simp only [gen_params] at h
    split at h
    · simp at h
    next f1 m1 hp =>
    obtain ⟨t, ht, hins⟩ := ihp _ _ _ _ _ _ _ _ _ _ _ h
    refine ⟨(if tl then (⟨Opcode.MOV, tp + 1, tb + 1, 0⟩ : Instruction)
             else ⟨Opcode.MVO, tp + 1, tb + 1, 255⟩) :: t, by simp [ht], ?_⟩
    intro ins hin
    rcases List.mem_cons.mp hin with hhead | htail
    · subst hhead
      cases tl <;> simp
    · exact hins ins htail

/-- C4: a call generated with the tail flag true emits, after the
argument-evaluation code, its parameter transfers and then a single `JMP`
with the 24-bit callee index packed little-endian across
target/left/right — never a `CAL` (push-frame) instruction; with the
tail flag false the transfers are frame-crossing `MVO` instructions whose
right operand byte is the sentinel 0xFF, followed by exactly one `CAL`
(24-bit packed index) and exactly one result-load `LDR` targeting the
base register. -/
theorem claim_C4_call_lowering (name : String) (param : List Expression)
    (base : Nat) (func : FuncMap) (vars : VarMap) (module : Module)
    (oinfo : OptimizationInfo) (f2 : FuncMap) (m2 : Module)
    (h : generate_expression (Expression.Function name param) base func vars module
      oinfo = some (f2, m2)) :
    ∃ index f1 m1 movs,
      assoc_find func name = some index ∧
      gen_params param base reg.VAL func vars module ⟨oinfo.func_name, false⟩
        oinfo.tail [] = some (f1, m1, movs) ∧
      (∀ ins ∈ movs, ins.opcode = (if oinfo.tail then Opcode.MOV else Opcode.MVO) ∧
        ins.right = (if oinfo.tail then 0 else 255)) ∧
      m2.code = m1.code ++ movs ++
        (if oinfo.tail then
          [⟨Opcode.JMP, index % 256, index / 256 % 256, index / 65536 % 256⟩]
        else
          [⟨Opcode.CAL, index % 256, index / 256 % 256, index / 65536 % 256⟩,
           ⟨Opcode.LDR, base, 0, 0⟩]) ∧
      (oinfo.tail = true →
        ∀ ins ∈ movs ++
          [(⟨Opcode.JMP, index % 256, index / 256 % 256, index / 65536 % 256⟩ :
            Instruction)],
          ins.opcode ≠ Opcode.CAL) := by
  simp only [generate_expression] at h
  split at h
  · simp at h
  next index hidx =>
  split at h
  · simp at h
  next f1 m1 movs hp =>
  obtain ⟨t, ht, hins⟩ := gen_params_movs param _ _ _ _ _ _ _ _ _ _ _ hp
  rw [List.nil_append] at ht
  subst ht
  refine ⟨index, _, _, movs, hidx, hp, hins, ?_, ?_⟩
  · split at h <;> cases h
    next htail => simp [htail, List.append_assoc]
    next htail =>
      have hft : oinfo.tail = false := by
        revert htail; cases oinfo.tail <;> simp
      simp [hft, List.append_assoc]
  · intro htail ins hin
    rcases List.mem_append.mp hin with hmov | hjmp
    · have := (hins ins hmov).1
      rw [htail] at this
      simp only [if_true] at this
      rw [this]
      intro hcal
      exact Opcode.noConfusion hcal
    · have : ins = ⟨Opcode.JMP, index % 256, index / 256 % 256, index / 65536 % 256⟩ :=
        List.mem_singleton.mp hjmp
      rw [this]
      intro hcal
      exact Opcode.noConfusion hcal

/-- Witness for C4 at a concrete non-tail call `f(5)` with `f` bound to
function index 2. -/
theorem claim_C4_witness :
    ∃ index f1 m1 movs,
      assoc_find [("f", 2)] "f" = some index ∧
      gen_params [Expression.Integer 5] 0 reg.VAL [("f", 2)] [] ⟨[], [], 0, []⟩
        ⟨"g", false⟩ false [] = some (f1, m1, movs) ∧
      (∀ ins ∈ movs, ins.opcode = Opcode.MVO ∧ ins.right = 255) ∧
      (⟨[], [], 0,
        [⟨Opcode.LD, 1, 5, 0⟩, ⟨Opcode.MVO, 1, 1, 255⟩, ⟨Opcode.CAL, 2, 0, 0⟩,
         ⟨Opcode.LDR, 0, 0, 0⟩]⟩ : Module).code = m1.code ++ movs ++
        [⟨Opcode.CAL, index % 256, index / 256 % 256, index / 65536 % 256⟩,
         ⟨Opcode.LDR, 0, 0, 0⟩] ∧
      (false = true →
        ∀ ins ∈ movs ++
          [(⟨Opcode.JMP, index % 256, index / 256 % 256, index / 65536 % 256⟩ :
            Instruction)],
          ins.opcode ≠ Opcode.CAL) :=
  claim_C4_call_lowering "f" [Expression.Integer 5] 0 [("f", 2)] [] ⟨[], [], 0, []⟩
    ⟨"g", false⟩ [("f", 2)]
    ⟨[], [], 0,
      [⟨Opcode.LD, 1, 5, 0⟩, ⟨Opcode.MVO, 1, 1, 255⟩, ⟨Opcode.CAL, 2, 0, 0⟩,
       ⟨Opcode.LDR, 0, 0, 0⟩]⟩
    (by simp [generate_expression, gen_params, expr_integer, reg.VAL, assoc_find,
      i16_lo, i16_hi]; decide)

theorem assoc_find_insert_self {α : Type} (m : List (String × α)) (k : String)
    (v : α) : assoc_find (assoc_insert m k v) k = some v := by
  induction m with
  | nil => simp [assoc_insert, assoc_find]
  | cons a t iht =>
    cases hk : (a.1 == k) with
    | true => simp [assoc_insert, hk, assoc_find]
    | false => simp [assoc_insert, hk, assoc_find, iht]

theorem list_getD_at_length {α : Type} (l1 : List α) (b : α) (l2 : List α) (d : α) :
    (l1 ++ b :: l2).getD l1.length d = b := by
  induction l1 with
  | nil => simp
  | cons a t iht => simpa using iht

theorem list_set_at_length {α : Type} (l1 : List α) (b : α) (l2 : List α) (a : α) :
    (l1 ++ b :: l2).set l1.length a = l1 ++ a :: l2 := by
  induction l1 with
  | nil => simp
  | cons x t iht => simpa using iht

/-- The body of a function definition consisting of `k` parameterless
calls to a function bound to `index` compiles to `k` consecutive `JMP`
instructions: every one of them, the non-final ones included, is lowered
in tail-call form, because `gen_seq` hands the same tail-true
optimization info to every body expression. -/
theorem gen_seq_calls (f : String) (index : Nat) (k : Nat) :
    ∀ (base : Nat) (func : FuncMap) (vars : VarMap) (module : Module)
      (fname : String),
    assoc_find func f = some index →
    gen_seq (List.replicate k (Expression.Function f [])) base func vars module
        ⟨fname, true⟩
      = some (func, { module with code := (module.code ++
          List.replicate k
            ⟨Opcode.JMP, index % 256, index / 256 % 256, index / 65536 % 256⟩) }) := by
  induction k with
  | zero =>
    intro base func vars module fname hfind
    simp [gen_seq]
  | succ k ihk =>
    intro base func vars module fname hfind
    have hcall : generate_expression (Expression.Function f []) base func vars module
        ⟨fname, true⟩
        = some (func, { module with code := (module.code ++
            [⟨Opcode.JMP, index % 256, index / 256 % 256, index / 65536 % 256⟩]) }) := by
      simp [generate_expression, gen_params, hfind]
    rw [List.replicate_succ]
    simp only [gen_seq]
    simp only [hcall]
    rw [ihk base func vars _ fname hfind]
    simp [List.replicate_succ, List.append_assoc]

/-- Evaluating a list of in-range integer-literal arguments always
succeeds, leaves the function table and the module's function list
untouched, and only appends code. -/
theorem gen_params_ints (as : List Int) :
    ∀ (tb tp : Nat) (func : FuncMap) (vars : VarMap) (module : Module)
      (po : OptimizationInfo) (tl : Bool) (acc : List Instruction),
    (∀ a ∈ as, -32768 ≤ a ∧ a ≤ 32767) →
    ∃ m2 movs,
      gen_params (as.map Expression.Integer) tb tp func vars module po tl acc
        = some (func, m2, movs) ∧
      m2.functions = module.functions := by
  induction as with
  | nil =>
    intro tb tp func vars module po tl acc hb
    exact ⟨module, acc, by simp [gen_params], rfl⟩
  | cons a rest ihr =>
    intro tb tp func vars module po tl acc hb
    have hfit : -32768 ≤ a ∧ a ≤ 32767 := hb a (List.mem_cons_self a rest)
    have hint : generate_expression (Expression.Integer a) (tb + 1) func vars module po
        = some (func, { module with code := module.code ++
            [⟨Opcode.LD, tb + 1, i16_lo a, i16_hi a⟩] }) := by
      simp only [generate_expression]
      rw [expr_integer_eq, if_pos hfit]
    obtain ⟨m2, movs, hgp, hfun⟩ := ihr (tb + 1) (tp + 1) func vars
      { module with code := module.code ++ [⟨Opcode.LD, tb + 1, i16_lo a, i16_hi a⟩] }
      po tl (acc ++ [if tl then ⟨Opcode.MOV, tp + 1, tb + 1, 0⟩
                     else ⟨Opcode.MVO, tp + 1, tb + 1, 255⟩])
      (fun x hx => hb x (List.mem_cons_of_mem a hx))
    refine ⟨m2, movs, ?_, by rw [hfun]⟩
    simp only [List.map_cons, gen_params]
    rw [hint]
    exact hgp

/-- C2, amended: the tail flag is true for EVERY expression of a function
definition's body, not only the final one (the dispatcher builds
`tail = true` info for the definition and `expr_fundef`'s body loop hands
it unchanged to each body expression); descending into operator operands,
call arguments, conditions and let-initializers still resets it to false.
Exhibited here in full generality for bodies of `k` recursive calls:
every one of the `k` calls — non-final ones included — compiles to a
frame-reusing `JMP` carrying the function's own index, with no `CAL`
anywhere, followed by the return-value move and the return. -/
theorem claim_C2_amended_thm (f : String) (k : Nat) (base : Nat) (func : FuncMap)
    (vars : VarMap) (module : Module) (oinfo : OptimizationInfo) :
    generate_expression (Expression.FunctionDefinition f []
        (List.replicate k (Expression.Function f []))) base func vars module oinfo
      = some (assoc_insert func f (funcLen func),
          { module with
            functions := module.functions ++ [module.code.length],
            code := module.code ++
              List.replicate k ⟨Opcode.JMP, funcLen func % 256,
                funcLen func / 256 % 256, funcLen func / 65536 % 256⟩ ++
              [⟨Opcode.MOV, reg.VAL, base, 0⟩, ⟨Opcode.RET, 0, 0, 0⟩] }) := by
  simp only [generate_expression, bind_params]
  rw [gen_seq_calls f (funcLen func) k base _ vars _ f
    (assoc_find_insert_self func f (funcLen func))]

/-- C10: the function table entry and the entry address are recorded
before any body expression is generated, so a directly recursive call in
the function's own body resolves to the function's own index
(`funcLen func`, the next sequential index) and generation succeeds —
it never reaches the undefined-function abort. -/
theorem claim_C10_recursive_call (f : String) (ps : List String) (args : List Int)
    (base : Nat) (func : FuncMap) (vars : VarMap) (module : Module)
    (oinfo : OptimizationInfo)
    (hargs : ∀ a ∈ args, -32768 ≤ a ∧ a ≤ 32767) :
    ∃ f2 m2,
      generate_expression (Expression.FunctionDefinition f ps
          [Expression.Function f (args.map Expression.Integer)])
        base func vars module oinfo = some (f2, m2) ∧
      assoc_find f2 f = some (funcLen func) ∧
      m2.functions = module.functions ++ [module.code.length] := by
  obtain ⟨mP, movs, hgp, hfun⟩ := gen_params_ints args (bind_params ps base vars).2
    reg.VAL (assoc_insert func f (funcLen func)) (bind_params ps base vars).1
    { module with functions := module.functions ++ [module.code.length] }
    ⟨f, false⟩ true [] hargs
  refine ⟨assoc_insert func f (funcLen func),
    { mP with code := (mP.code ++ movs) ++
        [⟨Opcode.JMP, funcLen func % 256, funcLen func / 256 % 256,
          funcLen func / 65536 % 256⟩] ++
        [⟨Opcode.MOV, reg.VAL, (bind_params ps base vars).2, 0⟩,
         ⟨Opcode.RET, 0, 0, 0⟩] }, ?_, ?_, ?_⟩
  · simp only [generate_expression, gen_seq]
    simp only [assoc_find_insert_self func f (funcLen func)]
    simp only [hgp]
    simp [List.append_assoc]
  · exact assoc_find_insert_self func f (funcLen func)
  · rw [hfun]

/-- Witness for C10: the factorial-style direct recursion `f(n){f(3)}`
generated in the empty environment. -/
theorem claim_C10_witness :
    ∃ f2 m2,
      generate_expression (Expression.FunctionDefinition "f" ["n"]
          [Expression.Function "f" ([3].map Expression.Integer)])
        0 [] [] ⟨[], [], 0, []⟩ ⟨"NONE", false⟩ = some (f2, m2) ∧
      assoc_find f2 "f" = some (funcLen []) ∧
      m2.functions = ([] : List Nat) ++ [(⟨[], [], 0, []⟩ : Module).code.length] :=
  claim_C10_recursive_call "f" ["n"] [3] 0 [] [] ⟨[], [], 0, []⟩ ⟨"NONE", false⟩
    (by decide)

/-- C7: successful conditional lowering decomposes the final code as the
unchanged incoming code, the condition block, the patched conditional
branch, the false-branch block, the patched unconditional branch and the
true-branch block — the conditional-branch placeholder at
`P1 = m1.code.length` is patched (left/right, 16-bit little-endian) with
offset `(code length at patch time) − P1 + 1 = ncode.length + 2`, the
unconditional-branch placeholder at `P2` is patched
(target/left/right, 24-bit little-endian) with offset
`(code length at patch time) − P2 = ycode.length + 1`, and no other
already-emitted instruction is mutated (every other block reappears
unchanged in the decomposition). -/
theorem claim_C7_branch_patching (cond : Expression) (yes no : List Expression)
    (base : Nat) (func : FuncMap) (vars : VarMap) (module : Module)
    (oinfo : OptimizationInfo) (f2 : FuncMap) (m2 : Module)
    (h : generate_expression (Expression.Conditional cond yes no) base func vars
      module oinfo = some (f2, m2)) :
    ∃ f1 m1 ccode fn mN ncode fy mY ycode,
      generate_expression cond base func vars module ⟨oinfo.func_name, false⟩
        = some (f1, m1) ∧
      m1.code = module.code ++ ccode ∧
      gen_branch no base f1 vars
        { m1 with code := m1.code ++ [⟨Opcode.JTF, base, 0, 0⟩] }
        ⟨oinfo.func_name, false⟩ oinfo = some (fn, mN) ∧
      mN.code = module.code ++ ccode ++ ⟨Opcode.JTF, base, 0, 0⟩ :: ncode ∧
      ncode.length + 2 = mN.code.length - m1.code.length + 1 ∧
      gen_branch yes base fn vars
        { mN with code := ((module.code ++ ccode) ++
            ⟨Opcode.JTF, base, (ncode.length + 2) % 256,
              (ncode.length + 2) / 256 % 256⟩ :: ncode) ++ [⟨Opcode.JMF, 0, 0, 0⟩] }
        ⟨oinfo.func_name, false⟩ oinfo = some (fy, mY) ∧
      mY.code = ((module.code ++ ccode) ++
          ⟨Opcode.JTF, base, (ncode.length + 2) % 256,
            (ncode.length + 2) / 256 % 256⟩ :: ncode) ++
          ⟨Opcode.JMF, 0, 0, 0⟩ :: ycode ∧
      ycode.length + 1 =
        mY.code.length - (module.code ++ ccode ++
          ⟨Opcode.JTF, base, 0, 0⟩ :: ncode).length ∧
      f2 = fy ∧
      m2.code = ((module.code ++ ccode) ++
          ⟨Opcode.JTF, base, (ncode.length + 2) % 256,
            (ncode.length + 2) / 256 % 256⟩ :: ncode) ++
          ⟨Opcode.JMF, (ycode.length + 1) % 256, (ycode.length + 1) / 256 % 256,
            (ycode.length + 1) / 65536 % 256⟩ :: ycode := by
  simp only [generate_expression] at h
  split at h
  · simp at h
  next f1 m1 hc =>
  split at h
  · simp at h
  next fn mN hn =>
  obtain ⟨-, ccode, hcc⟩ := generate_expression_extends hc
  obtain ⟨-, ncode0, hnc0⟩ := gen_branch_extends hn
  have hform : mN.code = m1.code ++ ⟨Opcode.JTF, base, 0, 0⟩ :: ncode0 := by
    rw [hnc0]
    simp
  have hgetd : mN.code.getD m1.code.length ⟨Opcode.HLT, 0, 0, 0⟩
      = ⟨Opcode.JTF, base, 0, 0⟩ := by
    rw [hform]
    exact list_getD_at_length _ _ _ _
  have hoff1 : mN.code.length - m1.code.length + 1 = ncode0.length + 2 := by
    rw [hform]
    simp
  have hset : mN.code.set m1.code.length
      ⟨Opcode.JTF, base, (ncode0.length + 2) % 256, (ncode0.length + 2) / 256 % 256⟩
      = (module.code ++ ccode) ++
        ⟨Opcode.JTF, base, (ncode0.length + 2) % 256,
          (ncode0.length + 2) / 256 % 256⟩ :: ncode0 := by
    rw [hform, hcc]
    exact list_set_at_length _ _ _ _
  rw [hgetd] at h
  dsimp only at h
  rw [hoff1, hset] at h
  split at h
  · simp at h
  next fy mY hy =>
  obtain ⟨-, ycode0, hyc0⟩ := gen_branch_extends hy
  have hyform : mY.code = ((module.code ++ ccode) ++
      ⟨Opcode.JTF, base, (ncode0.length + 2) % 256,
        (ncode0.length + 2) / 256 % 256⟩ :: ncode0) ++
      ⟨Opcode.JMF, 0, 0, 0⟩ :: ycode0 := by
    rw [hyc0]
    simp
  have hgetd2 : mY.code.getD ((module.code ++ ccode) ++
      ⟨Opcode.JTF, base, (ncode0.length + 2) % 256,
        (ncode0.length + 2) / 256 % 256⟩ :: ncode0).length ⟨Opcode.HLT, 0, 0, 0⟩
      = ⟨Opcode.JMF, 0, 0, 0⟩ := by
    rw [hyform]
    exact list_getD_at_length _ _ _ _
  have hoff2 : mY.code.length - ((module.code ++ ccode) ++
      ⟨Opcode.JTF, base, (ncode0.length + 2) % 256,
        (ncode0.length + 2) / 256 % 256⟩ :: ncode0).length = ycode0.length + 1 := by
    rw [hyform]
    simp
    omega
  have hset2 : mY.code.set ((module.code ++ ccode) ++
      ⟨Opcode.JTF, base, (ncode0.length + 2) % 256,
        (ncode0.length + 2) / 256 % 256⟩ :: ncode0).length
      ⟨Opcode.JMF, (ycode0.length + 1) % 256, (ycode0.length + 1) / 256 % 256,
        (ycode0.length + 1) / 65536 % 256⟩
      = ((module.code ++ ccode) ++
          ⟨Opcode.JTF, base, (ncode0.length + 2) % 256,
            (ncode0.length + 2) / 256 % 256⟩ :: ncode0) ++
          ⟨Opcode.JMF, (ycode0.length + 1) % 256, (ycode0.length + 1) / 256 % 256,
            (ycode0.length + 1) / 65536 % 256⟩ :: ycode0 := by
    rw [hyform]
    exact list_set_at_length _ _ _ _
  rw [hgetd2] at h
  dsimp only at h
  rw [hoff2, hset2] at h
  cases h
  refine ⟨f1, m1, ccode, fn, mN, ncode0, _, mY, ycode0, hc, hcc, hn, ?_, ?_, hy,
    hyform, ?_, rfl, ?_⟩
  · rw [hform, hcc]
  · rw [hoff1]
  · rw [hyform]
    simp
    omega
  · rfl

/-- Witness for C7 at the concrete conditional
`Conditional(Integer(1), [Integer(2)], [Integer(3)])` generated into the
empty module. -/
theorem claim_C7_witness :
    ∃ f1 m1 ccode fn mN ncode fy mY ycode,
      generate_expression (Expression.Integer 1) 0 [] [] ⟨[], [], 0, []⟩
        ⟨"NONE", false⟩ = some (f1, m1) ∧
      m1.code = ([] : List Instruction) ++ ccode ∧
      gen_branch [Expression.Integer 3] 0 f1 []
        { m1 with code := m1.code ++ [⟨Opcode.JTF, 0, 0, 0⟩] }
        ⟨"NONE", false⟩ ⟨"NONE", false⟩ = some (fn, mN) ∧
      mN.code = ([] : List Instruction) ++ ccode ++ ⟨Opcode.JTF, 0, 0, 0⟩ :: ncode ∧
      ncode.length + 2 = mN.code.length - m1.code.length + 1 ∧
      gen_branch [Expression.Integer 2] 0 fn []
        { mN with code := ((([] : List Instruction) ++ ccode) ++
            ⟨Opcode.JTF, 0, (ncode.length + 2) % 256,
              (ncode.length + 2) / 256 % 256⟩ :: ncode) ++ [⟨Opcode.JMF, 0, 0, 0⟩] }
        ⟨"NONE", false⟩ ⟨"NONE", false⟩ = some (fy, mY) ∧
      mY.code = ((([] : List Instruction) ++ ccode) ++
          ⟨Opcode.JTF, 0, (ncode.length + 2) % 256,
            (ncode.length + 2) / 256 % 256⟩ :: ncode) ++
          ⟨Opcode.JMF, 0, 0, 0⟩ :: ycode ∧
      ycode.length + 1 =
        mY.code.length - (([] : List Instruction) ++ ccode ++
          ⟨Opcode.JTF, 0, 0, 0⟩ :: ncode).length ∧
      ([] : FuncMap) = fy ∧
      (⟨[], [], 0,
        [⟨Opcode.LD, 0, 1, 0⟩, ⟨Opcode.JTF, 0, 4, 0⟩, ⟨Opcode.LD, 0, 3, 0⟩,
         ⟨Opcode.LD, 0, 3, 0⟩, ⟨Opcode.JMF, 3, 0, 0⟩, ⟨Opcode.LD, 0, 2, 0⟩,
         ⟨Opcode.LD, 0, 2, 0⟩]⟩ : Module).code = ((([] : List Instruction) ++ ccode) ++
          ⟨Opcode.JTF, 0, (ncode.length + 2) % 256,
            (ncode.length + 2) / 256 % 256⟩ :: ncode) ++
          ⟨Opcode.JMF, (ycode.length + 1) % 256, (ycode.length + 1) / 256 % 256,
            (ycode.length + 1) / 65536 % 256⟩ :: ycode :=
  claim_C7_branch_patching (Expression.Integer 1) [Expression.Integer 2]
    [Expression.Integer 3] 0 [] [] ⟨[], [], 0, []⟩ ⟨"NONE", false⟩ []
    ⟨[], [], 0,
      [⟨Opcode.LD, 0, 1, 0⟩, ⟨Opcode.JTF, 0, 4, 0⟩, ⟨Opcode.LD, 0, 3, 0⟩,
       ⟨Opcode.LD, 0, 3, 0⟩, ⟨Opcode.JMF, 3, 0, 0⟩, ⟨Opcode.LD, 0, 2, 0⟩,
       ⟨Opcode.LD, 0, 2, 0⟩]⟩
    (by simp [generate_expression, gen_branch, gen_seq, expr_integer,
      i16_lo, i16_hi]; decide)

end codegen
